import Mathlib

/-!
# Verification of the orderbook-pathfinder virtual-orderbook core (package p2)

Shallow embedding of the Go source `internal/p2` (graph builder, path
enumerator, per-path combiner, cross-path aggregator, virtual-book
finalizer, executor) together with theorems settling the frozen claims.

Embedding conventions:
* Go `float64` values are modelled as exact rationals `ℚ`.  The special
  value `math.NaN()` returned by the executor for an empty book is
  modelled by `Option.none` on the effective-price component.
* Go's `map[string]map[string]TradingPair` is modelled as an insertion
  log (association list) keyed by the ordered currency pair; a later
  insertion shadows an earlier one, which matches Go's overwrite
  semantics.  Iteration over a Go map has unspecified order; here
  neighbour iteration follows most-recent-insertion order, one fixed
  resolution of that nondeterminism (all claim statements proved below
  are insensitive to it).
* `sort.Slice` (an unspecified comparison sort) is modelled by a stable
  insertion sort with the same comparator.
* The depth-first search `findPathsRecursive` carries an extra `fuel`
  argument to make the recursion structural; `findAllPaths` supplies
  `maxDepth + 1`, which the source's own depth guard never exhausts.
-/

/-- One order-book level: a price and a quantity (Go struct `Level`). -/
structure Level where
  Price : ℚ
  Amount : ℚ
deriving DecidableEq, Repr

/-- A trading pair with its ask and bid books (Go struct `TradingPair`). -/
structure TradingPair where
  Base : String
  Quote : String
  AskOrders : List Level
  BidOrders : List Level
deriving DecidableEq, Repr

/-- The directed trading graph, as an insertion log of edges.  The entry
for a key nearest the head is the current value (later Go map writes
shadow earlier ones). -/
abbrev Graph : Type := List ((String × String) × TradingPair)

/-- A composite level of the virtual order book (Go struct `VirtualLevel`). -/
structure VirtualLevel where
  Price : ℚ
  Amount : ℚ
  Route : List String
  LevelPrices : List ℚ
deriving DecidableEq, Repr

/-- The virtual order book for a currency pair (Go struct `VirtualTradingPair`). -/
structure VirtualTradingPair where
  Base : String
  Quote : String
  AskOrders : List VirtualLevel
  BidOrders : List VirtualLevel
deriving DecidableEq, Repr

/-- A priced depth combination (Go struct `PriceVolumeCombo`). -/
structure PriceVolumeCombo where
  prices : List ℚ
  depth : ℚ
deriving DecidableEq, Repr

/-- A route candidate produced by the Cartesian enumeration
(Go struct `RouteCandidate`). -/
structure RouteCandidate where
  prices : List ℚ
  levelIndices : List Nat
  finalPrice : ℚ
  maxVolume : ℚ
deriving DecidableEq, Repr

/-- Per-pair level cap (Go constant `MAX_LEVELS_PER_PAIR`). -/
def MAX_LEVELS_PER_PAIR : Nat := 5

/-- Per-path depth cap (Go constant `MAX_PATH_DEPTH`). -/
def MAX_PATH_DEPTH : Nat := 5

/-- Write the edge `x → y` into the graph (Go `graph[x][y] = p`). -/
def insertEdge (g : Graph) (x y : String) (p : TradingPair) : Graph :=
  ((x, y), p) :: g

/-- Read the edge `x → y` from the graph (Go `graph[x][y]`, with the
`exists` flag modelled by `Option`). -/
def lookupEdge (g : Graph) (x y : String) : Option TradingPair :=
  (g.find? (fun e => e.1.1 == x && e.1.2 == y)).map (·.2)

/-- The currencies reachable from `x` in one hop (Go `range graph[x]`;
iteration order is most-recent-insertion first). -/
def neighbors (g : Graph) (x : String) : List String :=
  ((g.filter (fun e => e.1.1 == x)).map (fun e => e.1.2)).dedup

/-- Drop levels with non-positive price and invert the rest:
`(p, v) ↦ (1/p, v·p)` (Go `invertOrders`). -/
def invertOrders (levels : List Level) : List Level :=
  levels.filterMap (fun level =>
    if 0 < level.Price then
      some { Price := 1 / level.Price, Amount := level.Amount * level.Price }
    else
      none)

/-- Store one input pair: truncate both books to `MAX_LEVELS_PER_PAIR`
levels, write the forward edge, then write the synthetic reverse edge
(the loop body of Go `buildGraph`). -/
def addPair (g : Graph) (pair : TradingPair) : Graph :=
  let limitedAskOrders := pair.AskOrders.take MAX_LEVELS_PER_PAIR
  let limitedBidOrders := pair.BidOrders.take MAX_LEVELS_PER_PAIR
  let fwd : TradingPair :=
    { Base := pair.Base, Quote := pair.Quote
      AskOrders := limitedAskOrders, BidOrders := limitedBidOrders }
  let rev : TradingPair :=
    { Base := pair.Quote, Quote := pair.Base
      AskOrders := invertOrders limitedBidOrders
      BidOrders := invertOrders limitedAskOrders }
  insertEdge (insertEdge g pair.Base pair.Quote fwd) pair.Quote pair.Base rev

/-- Build the trading graph from the input pairs (Go `buildGraph`). -/
def buildGraph (pairs : List TradingPair) : Graph :=
  pairs.foldl addPair []

/-- Depth-first enumeration of simple paths (Go `findPathsRecursive`).
The extra `fuel` argument makes the recursion structural; with
`fuel ≥ maxDepth + 2 - currentPath.length` it never reaches `0` before
the source's own depth guard fires. -/
def findPathsRecursive (graph : Graph) (fuel : Nat)
    (currentToken targetToken : String) (visited : List String)
    (currentPath : List String) (maxDepth : Nat) : List (List String) :=
  match fuel with
  | 0 => []
  | fuel + 1 =>
    if currentPath.length > maxDepth then []
    else if currentToken = targetToken ∧ 1 < currentPath.length then [currentPath]
    else
      ((neighbors graph currentToken).filter
          (fun n => !((currentToken :: visited).contains n))).flatMap
        (fun n =>
          findPathsRecursive graph fuel n targetToken (currentToken :: visited)
            (currentPath ++ [n]) maxDepth)

/-- Enumerate all simple paths from `start` to `targetToken` of at most
`maxDepth` currencies (Go `findAllPaths`). -/
def findAllPaths (graph : Graph) (start targetToken : String) (maxDepth : Nat) :
    List (List String) :=
  findPathsRecursive graph (maxDepth + 1) start targetToken [] [start] maxDepth

/-- Cartesian product of level choices over the hops, carrying the chosen
prices, level indices and amounts (Go `generateAllRouteCandidates`; the
`maxVolume = +Inf` sentinel for an empty index list is modelled by the
empty-amounts case producing no candidate). -/
def generateAllRouteCandidates (hops : List (List Level))
    (currentPrices : List ℚ) (currentIndices : List Nat)
    (currentAmounts : List ℚ) : List RouteCandidate :=
  match hops with
  | [] =>
    match currentAmounts with
    | [] => []
    | a :: rest =>
      let maxVolume := rest.foldl min a
      if 0 < maxVolume then
        [{ prices := currentPrices, levelIndices := currentIndices
           finalPrice := currentPrices.foldl (· * ·) 1, maxVolume := maxVolume }]
      else []
  | hop :: restHops =>
    hop.enum.flatMap (fun il =>
      generateAllRouteCandidates restHops (currentPrices ++ [il.2.Price])
        (currentIndices ++ [il.1]) (currentAmounts ++ [il.2.Amount]))

/-- Stable insertion of `a` into `l` using the strict comparator `lt`
(helper for the model of Go's `sort.Slice`). -/
def insertBy {α : Type} (lt : α → α → Bool) (a : α) : List α → List α
  | [] => [a]
  | b :: l => if lt a b then a :: b :: l else b :: insertBy lt a l

/-- Stable insertion sort by the strict comparator `lt` (model of Go's
`sort.Slice`). -/
def sortBy {α : Type} (lt : α → α → Bool) : List α → List α
  | [] => []
  | a :: l => insertBy lt a (sortBy lt l)

/-- Sort candidates by composite price: ascending for asks, descending
for bids (Go `sortCandidatesByPrice`). -/
def sortCandidatesByPrice (candidates : List RouteCandidate) (isAsk : Bool) :
    List RouteCandidate :=
  sortBy (fun c d =>
    if isAsk then c.finalPrice < d.finalPrice else d.finalPrice < c.finalPrice)
    candidates

/-- Residual quantity of level `li` of hop `hi` (Go
`remainingVolumes[hopIdx][levelIdx]`; indices are always in range at the
call sites, so the defaults are never observed). -/
def residualAt (rem : List (List ℚ)) (hi li : Nat) : ℚ :=
  (rem.getD hi []).getD li 0

/-- Largest volume a candidate may still use: its creation-time
`maxVolume` capped by every referenced residual (first inner loop of
Go `generateCombinationsWithVolumeTracking`). -/
def maxUsableVolume (c : RouteCandidate) (rem : List (List ℚ)) : ℚ :=
  c.levelIndices.enum.foldl (fun m hl => min m (residualAt rem hl.1 hl.2)) c.maxVolume

/-- Subtract `used` from every residual referenced by `indices` (second
inner loop of Go `generateCombinationsWithVolumeTracking`). -/
def deductVolume (rem : List (List ℚ)) (indices : List Nat) (used : ℚ) :
    List (List ℚ) :=
  rem.enum.map (fun hr =>
    match indices.get? hr.1 with
    | some li => hr.2.enum.map (fun jv => if jv.1 = li then jv.2 - used else jv.2)
    | none => hr.2)

/-- Greedy pass over the price-sorted candidates, consuming the shared
per-hop residual table (outer loop of Go
`generateCombinationsWithVolumeTracking`). -/
def consumeCandidates : List RouteCandidate → List (List ℚ) → List PriceVolumeCombo
  | [], _ => []
  | c :: cs, rem =>
    let used := maxUsableVolume c rem
    if 0 < used then
      { prices := c.prices, depth := used } ::
        consumeCandidates cs (deductVolume rem c.levelIndices used)
    else
      consumeCandidates cs rem

/-- Enumerate, sort and greedily assign volumes for one path's hop levels
(Go `generateCombinationsWithVolumeTracking`). -/
def generateCombinationsWithVolumeTracking (allHopLevels : List (List Level))
    (isAsk : Bool) : List PriceVolumeCombo :=
  if allHopLevels = [] then []
  else
    consumeCandidates
      (sortCandidatesByPrice (generateAllRouteCandidates allHopLevels [] [] []) isAsk)
      (allHopLevels.map (fun hop => hop.map Level.Amount))

/-- Collect the chosen-side order book of every hop along `path`;
`none` when some edge is absent (edge-collection loop of Go
`getAllPriceVolumeCombinations`). -/
def hopLevelsOf (graph : Graph) (path : List String) (isAsk : Bool) :
    Option (List (List Level)) :=
  (path.zip path.tail).mapM (fun ft =>
    (lookupEdge graph ft.1 ft.2).map (fun pair =>
      if isAsk then pair.AskOrders else pair.BidOrders))

/-- All priced depth combinations for one path and side (Go
`getAllPriceVolumeCombinations`). -/
def getAllPriceVolumeCombinations (graph : Graph) (path : List String)
    (isAsk : Bool) : List PriceVolumeCombo :=
  if path.length < 2 then []
  else
    match hopLevelsOf graph path isAsk with
    | none => []
    | some allHopLevels => generateCombinationsWithVolumeTracking allHopLevels isAsk

/-- Turn one path's combinations into virtual levels; the stored route is
reversed for the ask side (Go `calculateOrdersFromPath`). -/
def calculateOrdersFromPath (graph : Graph) (path : List String) (isAsk : Bool) :
    List VirtualLevel :=
  if path.length < 2 then []
  else
    let truePath := if isAsk then path.reverse else path
    (getAllPriceVolumeCombinations graph path isAsk).filterMap (fun combo =>
      if 0 < combo.depth then
        some { Price := combo.prices.foldl (· * ·) 1, Amount := combo.depth
               Route := truePath, LevelPrices := combo.prices }
      else none)

/-- Sort virtual levels by price, ascending for asks and descending for
bids (Go `sortVirtualLevels`). -/
def sortVirtualLevels (levels : List VirtualLevel) (isAsk : Bool) :
    List VirtualLevel :=
  sortBy (fun a b => if isAsk then a.Price < b.Price else b.Price < a.Price) levels

/-- Absolute price tolerance of the merge pass (the literal `1e-8`). -/
def MERGE_EPS : ℚ := 1 / 100000000

/-- Accumulator loop of Go `mergeVirtualLevels`: `current` is the open
run; a level within `MERGE_EPS` of the run's first price is folded into
it (quantities add; the route is swapped when the new level's price is
strictly below the run's first price). -/
def mergeAux (current : VirtualLevel) : List VirtualLevel → List VirtualLevel
  | [] => [current]
  | l :: rest =>
    if |l.Price - current.Price| < MERGE_EPS then
      mergeAux
        { current with
          Amount := current.Amount + l.Amount
          Route := if l.Price < current.Price then l.Route else current.Route }
        rest
    else
      current :: mergeAux l rest

/-- Merge near-equal-price virtual levels (Go `mergeVirtualLevels`). -/
def mergeVirtualLevels : List VirtualLevel → List VirtualLevel
  | [] => []
  | l :: rest => mergeAux l rest

/-- Build the finalized virtual order book for `(baseCurrency,
quoteCurrency)` (Go `buildVirtualOrderbook`). -/
def buildVirtualOrderbook (graph : Graph) (baseCurrency quoteCurrency : String) :
    VirtualTradingPair :=
  let paths := findAllPaths graph baseCurrency quoteCurrency MAX_PATH_DEPTH
  let askOrders := paths.flatMap (fun path => calculateOrdersFromPath graph path true)
  let bidOrders := paths.flatMap (fun path => calculateOrdersFromPath graph path false)
  { Base := baseCurrency, Quote := quoteCurrency
    AskOrders := mergeVirtualLevels (sortVirtualLevels askOrders true)
    BidOrders := mergeVirtualLevels (sortVirtualLevels bidOrders false) }

/-- Walk the book: returns `(totalCost, executedAmount, fills)` (the loop
of Go `findBestRouteFromVirtualOrderbook`; the `remaining ≤ 0` branch is
the loop's `break`). -/
def walkBook : List VirtualLevel → ℚ → ℚ × ℚ × List VirtualLevel
  | [], _ => (0, 0, [])
  | level :: rest, remaining =>
    if remaining ≤ 0 then (0, 0, [])
    else
      let executed := min remaining level.Amount
      let t := walkBook rest (remaining - executed)
      (executed * level.Price + t.1, executed + t.2.1,
        { Price := level.Price, Amount := executed
          Route := level.Route, LevelPrices := level.LevelPrices } :: t.2.2)

/-- Execute `targetAmount` against a virtual book side, returning the
effective price and the fill list (Go `findBestRouteFromVirtualOrderbook`;
the `NaN` price for an empty book is modelled as `none`). -/
def findBestRouteFromVirtualOrderbook (levels : List VirtualLevel)
    (targetAmount : ℚ) : Option ℚ × List VirtualLevel :=
  if levels = [] then (none, [])
  else
    let t := walkBook levels targetAmount
    (some (if 0 < t.2.1 ∧ 0 < targetAmount then t.1 / min t.2.1 targetAmount else 0),
      t.2.2)

/-! ## Concrete inputs used by individual claims -/

/-- Scenario 1 input pairs: KNC/USDT and ETH/USDT. -/
def scenario1Pairs : List TradingPair :=
  [ { Base := "KNC", Quote := "USDT",
      AskOrders := [⟨1, 200⟩, ⟨7/5, 400⟩],
      BidOrders := [⟨9/10, 100⟩, ⟨4/5, 300⟩] },
    { Base := "ETH", Quote := "USDT",
      AskOrders := [⟨40, 10⟩],
      BidOrders := [⟨30, 10⟩, ⟨20, 15⟩] } ]

/-- A pair list whose paths A→B→D and A→C→B→D share the edge-level
(B→D, ask, level 0) of quantity 100. -/
def sharedEdgePairs : List TradingPair :=
  [ { Base := "A", Quote := "B", AskOrders := [⟨1, 100⟩], BidOrders := [] },
    { Base := "B", Quote := "D", AskOrders := [⟨1, 100⟩], BidOrders := [] },
    { Base := "A", Quote := "C", AskOrders := [⟨1, 100⟩], BidOrders := [] },
    { Base := "C", Quote := "B", AskOrders := [⟨1, 100⟩], BidOrders := [] } ]

/-! ## Claim theorems -/

attribute [local semireducible] Rat.mul Rat.add Rat.inv Rat.sub in
/-- C1 (code_bug evaluation): on `sharedEdgePairs`, the input edge B→D has a
single ask level of quantity 100, yet the virtual ask book built for the
request (A, D) — every level of which consumes that edge-level, since both
enumerated paths A→B→D and A→C→B→D traverse B→D at ask level 0 — carries a
total quantity of 200.  The residual-volume table of
`generateCombinationsWithVolumeTracking` is allocated per path, so candidates
from different paths that share an edge-level do not share the residual, and
the edge-level is oversold. -/
theorem c1_shared_edge_level_oversold :
    lookupEdge (buildGraph sharedEdgePairs) "B" "D" =
      some { Base := "B", Quote := "D", AskOrders := [⟨1, 100⟩], BidOrders := [] } ∧
    findAllPaths (buildGraph sharedEdgePairs) "A" "D" MAX_PATH_DEPTH =
      [["A", "C", "B", "D"], ["A", "B", "D"]] ∧
    ((buildVirtualOrderbook (buildGraph sharedEdgePairs) "A" "D").AskOrders.map
        (fun l => l.Amount)).sum = 200 := by
  decide

attribute [local semireducible] Rat.mul Rat.add Rat.inv Rat.sub in
/-- C2: for the Scenario 1 input, the virtual ask book for (KNC, ETH) is
exactly [(1/30, 200), (1.4/30, 100), (1.4/20, 300)] in that order, and
executing target 300 on it yields fills of 200 @ 1/30 and 100 @ 1.4/30 with
effective price 34/900. -/
theorem c2_scenario1_book_and_execution :
    ((buildVirtualOrderbook (buildGraph scenario1Pairs) "KNC" "ETH").AskOrders.map
        (fun l => (l.Price, l.Amount)) =
      [(1/30, 200), (7/150, 100), (7/100, 300)]) ∧
    (findBestRouteFromVirtualOrderbook
        (buildVirtualOrderbook (buildGraph scenario1Pairs) "KNC" "ETH").AskOrders
        300).2.map (fun l => (l.Price, l.Amount)) =
      [(1/30, 200), (7/150, 100)] ∧
    (findBestRouteFromVirtualOrderbook
        (buildVirtualOrderbook (buildGraph scenario1Pairs) "KNC" "ETH").AskOrders
        300).1 = some (34/900) := by
  decide

/-- Unfolding `invertOrders` over a positive-price head level. -/
theorem invertOrders_cons_pos (p : Level) (hp : 0 < p.Price) (L : List Level) :
    invertOrders (p :: L) =
      ⟨1 / p.Price, p.Amount * p.Price⟩ :: invertOrders L := by
  simp [invertOrders, List.filterMap_cons, hp]

/-- C9: in the exact-rational model, inverting a level list with strictly
positive prices twice is the identity; consequently every level of the double
inversion agrees with the corresponding original level to within 10⁻⁹
relative error (here: exactly). -/
theorem c9_invertOrders_roundtrip (levels : List Level)
    (h : ∀ l ∈ levels, 0 < l.Price) :
    invertOrders (invertOrders levels) = levels ∧
    ∀ p ∈ (invertOrders (invertOrders levels)).zip levels,
      |p.1.Price - p.2.Price| ≤ 1 / 1000000000 * |p.2.Price| ∧
      |p.1.Amount - p.2.Amount| ≤ 1 / 1000000000 * |p.2.Amount| := by
  have key : invertOrders (invertOrders levels) = levels := by
    induction levels with
    | nil => rfl
    | cons l ls ih =>
      obtain ⟨lp, la⟩ := l
      have hl : (0 : ℚ) < lp := h ⟨lp, la⟩ (List.mem_cons_self _ _)
      have hl' : (0 : ℚ) < 1 / lp := by positivity
      rw [invertOrders_cons_pos ⟨lp, la⟩ hl,
        invertOrders_cons_pos ⟨1 / lp, la * lp⟩ hl',
        ih (fun x hx => h x (List.mem_cons_of_mem _ hx))]
      have hp : 1 / (1 / lp) = lp := one_div_one_div lp
      have ha : la * lp * (1 / lp) = la := by field_simp
      simp only [hp, ha]
  refine ⟨key, ?_⟩
  rw [key]
  intro p hp
  have hpp : p.1 = p.2 := by
    clear h key
    induction levels with
    | nil => simp at hp
    | cons l ls ih =>
      rcases List.mem_cons.mp hp with h1 | h1
      · rw [h1]
      · exact ih h1
  rw [hpp]
  constructor <;> · rw [sub_self, abs_zero]; positivity

/-- C9 witness: the round-trip theorem applied to a concrete positive-price
level list. -/
theorem c9_invertOrders_roundtrip_witness :
    invertOrders (invertOrders [(⟨2, 3⟩ : Level), ⟨5, 4⟩]) =
      [(⟨2, 3⟩ : Level), ⟨5, 4⟩] :=
  (c9_invertOrders_roundtrip [⟨2, 3⟩, ⟨5, 4⟩] (by decide)).1

/-- C10: executing any target against an empty virtual level list returns an
empty fill list with a NaN effective price (modelled as `none`), while a
non-positive target against a non-empty list returns an empty fill list with
effective price 0. -/
theorem c10_empty_book_nan_vs_zero (target nonposTarget : ℚ)
    (levels : List VirtualLevel) (hne : levels ≠ []) (hnp : nonposTarget ≤ 0) :
    findBestRouteFromVirtualOrderbook [] target = (none, []) ∧
    findBestRouteFromVirtualOrderbook levels nonposTarget = (some 0, []) := by
  constructor
  · rfl
  · match levels, hne with
    | l :: rest, _ =>
      have hw : walkBook (l :: rest) nonposTarget = (0, 0, []) := by
        rw [walkBook, if_pos hnp]
      simp [findBestRouteFromVirtualOrderbook, hw]

/-- C10 witness: the NaN-versus-zero theorem at concrete inputs. -/
theorem c10_empty_book_nan_vs_zero_witness :
    findBestRouteFromVirtualOrderbook [] (3 : ℚ) = (none, []) ∧
    findBestRouteFromVirtualOrderbook [⟨1, 5, [], []⟩] 0 = (some 0, []) :=
  c10_empty_book_nan_vs_zero 3 0 [⟨1, 5, [], []⟩] (by decide) (by decide)

/-- The fill list of `walkBook` is empty at target 0. -/
theorem walkBook_zero (levels : List VirtualLevel) :
    (walkBook levels 0).2.2 = [] := by
  cases levels with
  | nil => rfl
  | cons l rest => rw [walkBook, if_pos le_rfl]

/-- The total filled quantity of `walkBook` is bounded by the remaining
target and by the book's total quantity, given a non-negative target and
non-negative level quantities. -/
theorem walkBook_fills_le (levels : List VirtualLevel) :
    ∀ r : ℚ, 0 ≤ r → (∀ l ∈ levels, 0 ≤ l.Amount) →
      ((walkBook levels r).2.2.map (fun l => l.Amount)).sum ≤
        min r ((levels.map (fun l => l.Amount)).sum) := by
  induction levels with
  | nil =>
    intro r hr _
    simpa [walkBook] using le_min hr le_rfl
  | cons l rest ih =>
    intro r hr hA
    have hl : 0 ≤ l.Amount := hA l (List.mem_cons_self _ _)
    have hrest : ∀ x ∈ rest, 0 ≤ x.Amount := fun x hx => hA x (List.mem_cons_of_mem _ hx)
    by_cases h0 : r ≤ 0
    · rw [walkBook, if_pos h0]
      have hsum : 0 ≤ ((l :: rest).map (fun x => x.Amount)).sum := by
        apply List.sum_nonneg
        intro x hx
        obtain ⟨y, hy, rfl⟩ := List.mem_map.mp hx
        exact hA y hy
      simpa using le_min hr hsum
    · push_neg at h0
      rw [walkBook, if_neg (not_le.mpr h0)]
      have hex0 : 0 ≤ min r l.Amount := le_min (le_of_lt h0) hl
      have hexr : min r l.Amount ≤ r := min_le_left _ _
      have hexa : min r l.Amount ≤ l.Amount := min_le_right _ _
      have hr' : 0 ≤ r - min r l.Amount := by linarith
      have htail := ih (r - min r l.Amount) hr' hrest
      simp only [List.map_cons, List.sum_cons]
      refine le_min ?_ ?_
      · have : ((walkBook rest (r - min r l.Amount)).2.2.map (fun x => x.Amount)).sum ≤
            r - min r l.Amount := le_trans htail (min_le_left _ _)
        linarith
      · have : ((walkBook rest (r - min r l.Amount)).2.2.map (fun x => x.Amount)).sum ≤
            (rest.map (fun x => x.Amount)).sum := le_trans htail (min_le_right _ _)
        linarith

/-- C5: for every virtual level list with non-negative quantities and every
target T ≥ 0, the executor's fills sum to at most min(T, total book
quantity); a zero target always produces an empty fill list, and a shortfall
is returned as a short fill list (the executor is total and never errors). -/
theorem c5_executor_fill_bound (levels : List VirtualLevel) (T : ℚ)
    (hT : 0 ≤ T) (hA : ∀ l ∈ levels, 0 ≤ l.Amount) :
    (((findBestRouteFromVirtualOrderbook levels T).2.map (fun l => l.Amount)).sum ≤
      min T ((levels.map (fun l => l.Amount)).sum)) ∧
    (findBestRouteFromVirtualOrderbook levels 0).2 = [] := by
  constructor
  · by_cases h : levels = []
    · subst h
      simpa [findBestRouteFromVirtualOrderbook] using le_min hT le_rfl
    · rw [findBestRouteFromVirtualOrderbook, if_neg h]
      exact walkBook_fills_le levels T hT hA
  · by_cases h : levels = []
    · subst h; rfl
    · rw [findBestRouteFromVirtualOrderbook, if_neg h]
      exact walkBook_zero levels

/-- C5 witness: the fill bound at a concrete book and target. -/
theorem c5_executor_fill_bound_witness :
    ((0 : ℚ) ≤ 3) ∧
    ((((findBestRouteFromVirtualOrderbook [⟨2, 5, [], []⟩] 3).2.map
        (fun l => l.Amount)).sum ≤
      min 3 (([(⟨2, 5, [], []⟩ : VirtualLevel)].map (fun l => l.Amount)).sum)) ∧
    (findBestRouteFromVirtualOrderbook [(⟨2, 5, [], []⟩ : VirtualLevel)] 0).2 = []) :=
  ⟨by decide, c5_executor_fill_bound [⟨2, 5, [], []⟩] 3 (by decide) (by decide)⟩

/-- Looking up an edge after an insertion: the inserted key shadows, every
other key falls through. -/
theorem lookupEdge_insertEdge (g : Graph) (a b x y : String) (p : TradingPair) :
    lookupEdge (insertEdge g a b p) x y =
      if x = a ∧ y = b then some p else lookupEdge g x y := by
  rw [lookupEdge, insertEdge]
  by_cases hxy : x = a ∧ y = b
  · obtain ⟨hx1, hy1⟩ := hxy
    subst hx1; subst hy1
    rw [if_pos ⟨rfl, rfl⟩, List.find?_cons_of_pos]
    · rfl
    · simp
  · rw [if_neg hxy, List.find?_cons_of_neg]
    · rfl
    · simp only [beq_iff_eq, Bool.and_eq_true]
      intro hc
      exact hxy ⟨hc.1.symm, hc.2.symm⟩

/-- C7: the per-pair cap truncates both books of an input pair to their first
`MAX_LEVELS_PER_PAIR = 5` entries before the forward edge is stored, and the
reverse edge is built from the truncated lists, so only those capped levels
(those with positive price) are inverted into the reverse edge. -/
theorem c7_level_cap (pairs : List TradingPair) (p : TradingPair)
    (h : p.Base ≠ p.Quote) :
    lookupEdge (buildGraph (pairs ++ [p])) p.Base p.Quote =
      some { Base := p.Base, Quote := p.Quote
             AskOrders := p.AskOrders.take MAX_LEVELS_PER_PAIR
             BidOrders := p.BidOrders.take MAX_LEVELS_PER_PAIR } ∧
    lookupEdge (buildGraph (pairs ++ [p])) p.Quote p.Base =
      some { Base := p.Quote, Quote := p.Base
             AskOrders := invertOrders (p.BidOrders.take MAX_LEVELS_PER_PAIR)
             BidOrders := invertOrders (p.AskOrders.take MAX_LEVELS_PER_PAIR) } := by
  have hb : buildGraph (pairs ++ [p]) = addPair (buildGraph pairs) p := by
    rw [buildGraph, List.foldl_append]
    rfl
  rw [hb, addPair]
  constructor
  · rw [lookupEdge_insertEdge]
    have : ¬(p.Base = p.Quote ∧ p.Quote = p.Base) := fun hc => h hc.1
    rw [if_neg this, lookupEdge_insertEdge, if_pos ⟨rfl, rfl⟩]
  · rw [lookupEdge_insertEdge, if_pos ⟨rfl, rfl⟩]

/-- C7 witness: an input pair with 10 ask levels keeps exactly its first 5 on
the forward edge, and the reverse edge inverts only those 5 (and the capped
bids). -/
theorem c7_level_cap_witness :
    let p : TradingPair :=
      { Base := "A", Quote := "B"
        AskOrders := [⟨1, 1⟩, ⟨2, 1⟩, ⟨3, 1⟩, ⟨4, 1⟩, ⟨5, 1⟩,
                      ⟨6, 1⟩, ⟨7, 1⟩, ⟨8, 1⟩, ⟨9, 1⟩, ⟨10, 1⟩]
        BidOrders := [⟨2, 5⟩] }
    lookupEdge (buildGraph [p]) "A" "B" =
      some { Base := "A", Quote := "B"
             AskOrders := p.AskOrders.take MAX_LEVELS_PER_PAIR
             BidOrders := p.BidOrders.take MAX_LEVELS_PER_PAIR } ∧
    lookupEdge (buildGraph [p]) "B" "A" =
      some { Base := "B", Quote := "A"
             AskOrders := invertOrders (p.BidOrders.take MAX_LEVELS_PER_PAIR)
             BidOrders := invertOrders (p.AskOrders.take MAX_LEVELS_PER_PAIR) } :=
  c7_level_cap []
    { Base := "A", Quote := "B"
      AskOrders := [⟨1, 1⟩, ⟨2, 1⟩, ⟨3, 1⟩, ⟨4, 1⟩, ⟨5, 1⟩,
                    ⟨6, 1⟩, ⟨7, 1⟩, ⟨8, 1⟩, ⟨9, 1⟩, ⟨10, 1⟩]
      BidOrders := [⟨2, 5⟩] }
    (by decide)

/-- The reverse-edge relation asserted by the claim: every stored edge has a
stored reverse edge whose asks are exactly the forward bids inverted (in
order, positive prices only) and whose bids are the forward asks inverted. -/
def revExactInv (g : Graph) : Prop :=
  ∀ x y p, lookupEdge g x y = some p →
    ∃ q, lookupEdge g y x = some q ∧
      q.AskOrders = invertOrders p.BidOrders ∧
      q.BidOrders = invertOrders p.AskOrders

/-- C3 counterexample: for the single input pair A/B with asks [(0, 5)] and
no bids, the stored edge (B, A) has reverse edge (A, B) whose asks are
[(0, 5)], not the inversion (= []) of (B, A)'s bids: the zero-price ask level
survives on the forward edge but is dropped by every inversion, so the claim
fails as stated for arbitrary inputs. -/
theorem c3_reverse_edge_cex :
    ¬ revExactInv
        (buildGraph [{ Base := "A", Quote := "B",
                       AskOrders := [⟨0, 5⟩], BidOrders := [] }]) := by
  intro h
  obtain ⟨q, hq, hasks, _⟩ :=
    h "B" "A" { Base := "B", Quote := "A", AskOrders := [], BidOrders := [] }
      (by decide)
  have hq' : q = { Base := "A", Quote := "B",
                   AskOrders := [⟨0, 5⟩], BidOrders := [] } := by
    have : lookupEdge
        (buildGraph [{ Base := "A", Quote := "B",
                       AskOrders := [⟨0, 5⟩], BidOrders := [] }]) "A" "B" =
        some { Base := "A", Quote := "B",
               AskOrders := [⟨0, 5⟩], BidOrders := [] } := by decide
    rw [this] at hq
    exact (Option.some.inj hq).symm
  rw [hq'] at hasks
  exact absurd hasks (by decide)

/-- Double inversion is the identity on positive-price level lists. -/
theorem invertOrders_involution (levels : List Level)
    (h : ∀ l ∈ levels, 0 < l.Price) :
    invertOrders (invertOrders levels) = levels := by
  induction levels with
  | nil => rfl
  | cons l ls ih =>
    obtain ⟨lp, la⟩ := l
    have hl : (0 : ℚ) < lp := h ⟨lp, la⟩ (List.mem_cons_self _ _)
    have hl' : (0 : ℚ) < 1 / lp := by positivity
    rw [invertOrders_cons_pos ⟨lp, la⟩ hl,
      invertOrders_cons_pos ⟨1 / lp, la * lp⟩ hl',
      ih (fun x hx => h x (List.mem_cons_of_mem _ hx))]
    have hp : 1 / (1 / lp) = lp := one_div_one_div lp
    have ha : la * lp * (1 / lp) = la := by field_simp
    simp only [hp, ha]

/-- An input pair is well-formed for the amended C3: distinct currencies and
strictly positive prices on every level. -/
def GoodPair (p : TradingPair) : Prop :=
  p.Base ≠ p.Quote ∧ (∀ l ∈ p.AskOrders, 0 < l.Price) ∧
    (∀ l ∈ p.BidOrders, 0 < l.Price)

/-- Storing a good pair preserves the reverse-edge relation. -/
theorem addPair_revExactInv (g : Graph) (pair : TradingPair)
    (hg : revExactInv g) (hp : GoodPair pair) :
    revExactInv (addPair g pair) := by
  obtain ⟨hbq, hask, hbid⟩ := hp
  have hask' : ∀ l ∈ pair.AskOrders.take MAX_LEVELS_PER_PAIR, 0 < l.Price :=
    fun l hl => hask l (List.take_subset _ _ hl)
  have hbid' : ∀ l ∈ pair.BidOrders.take MAX_LEVELS_PER_PAIR, 0 < l.Price :=
    fun l hl => hbid l (List.take_subset _ _ hl)
  intro x y p hxy
  rw [addPair, lookupEdge_insertEdge, lookupEdge_insertEdge] at hxy
  rw [addPair, lookupEdge_insertEdge, lookupEdge_insertEdge]
  by_cases h1 : x = pair.Quote ∧ y = pair.Base
  · rw [if_pos h1] at hxy
    have hp' : p = { Base := pair.Quote, Quote := pair.Base
                     AskOrders := invertOrders (pair.BidOrders.take MAX_LEVELS_PER_PAIR)
                     BidOrders := invertOrders (pair.AskOrders.take MAX_LEVELS_PER_PAIR) } :=
      (Option.some.inj hxy).symm
    have hyx1 : ¬(y = pair.Quote ∧ x = pair.Base) := by
      intro hc
      exact hbq (h1.2.symm.trans hc.1)
    rw [if_neg hyx1, if_pos ⟨h1.2, h1.1⟩]
    refine ⟨_, rfl, ?_, ?_⟩
    · rw [hp']
      exact (invertOrders_involution _ hask').symm
    · rw [hp']
      exact (invertOrders_involution _ hbid').symm
  · rw [if_neg h1] at hxy
    by_cases h2 : x = pair.Base ∧ y = pair.Quote
    · rw [if_pos h2] at hxy
      have hp' : p = { Base := pair.Base, Quote := pair.Quote
                       AskOrders := pair.AskOrders.take MAX_LEVELS_PER_PAIR
                       BidOrders := pair.BidOrders.take MAX_LEVELS_PER_PAIR } :=
        (Option.some.inj hxy).symm
      rw [if_pos ⟨h2.2, h2.1⟩]
      refine ⟨_, rfl, ?_, ?_⟩ <;> rw [hp']
    · rw [if_neg h2] at hxy
      obtain ⟨q, hq, hq1, hq2⟩ := hg x y p hxy
      have hyx1 : ¬(y = pair.Quote ∧ x = pair.Base) := by
        intro hc
        exact h2 ⟨hc.2, hc.1⟩
      have hyx2 : ¬(y = pair.Base ∧ x = pair.Quote) := by
        intro hc
        exact h1 ⟨hc.2, hc.1⟩
      rw [if_neg hyx1, if_neg hyx2]
      exact ⟨q, hq, hq1, hq2⟩

/-- The reverse-edge relation holds for a fold over good pairs. -/
theorem foldl_addPair_revExactInv (pairs : List TradingPair) :
    ∀ g : Graph, (∀ p ∈ pairs, GoodPair p) → revExactInv g →
      revExactInv (pairs.foldl addPair g) := by
  induction pairs with
  | nil => intro g _ hg; exact hg
  | cons p ps ih =>
    intro g hgood hg
    rw [List.foldl_cons]
    exact ih (addPair g p)
      (fun q hq => hgood q (List.mem_cons_of_mem _ hq))
      (addPair_revExactInv g p hg (hgood p (List.mem_cons_self _ _)))

/-- C3 (amended): for every input pair list whose pairs have distinct base
and quote and strictly positive level prices, every stored edge (X, Y) of
`buildGraph` has a stored reverse edge (Y, X) whose asks are exactly the
stored forward bids mapped (p, v) ↦ (1/p, v·p) in order, and whose bids are
the stored forward asks so mapped. -/
theorem c3_reverse_edge_amended (pairs : List TradingPair)
    (h : ∀ p ∈ pairs, GoodPair p) :
    revExactInv (buildGraph pairs) := by
  apply foldl_addPair_revExactInv pairs [] h
  intro x y p hxy
  exact absurd hxy (by simp [lookupEdge, List.find?])

/-- C3 witness: the amended theorem applied to a concrete well-formed pair
list. -/
theorem c3_reverse_edge_amended_witness :
    revExactInv (buildGraph
      [{ Base := "A", Quote := "B",
         AskOrders := [⟨2, 8⟩], BidOrders := [⟨1, 4⟩] }]) :=
  c3_reverse_edge_amended
    [{ Base := "A", Quote := "B", AskOrders := [⟨2, 8⟩], BidOrders := [⟨1, 4⟩] }]
    (by
      intro p hp
      rw [List.mem_singleton] at hp
      subst hp
      exact ⟨by decide, by decide, by decide⟩)

/-- Accumulator pass for the claim's own merge semantics: `acc` is the open
run's merged level (fields of the run's first element, quantity summed) and
`prev` the price of the run's most recent member; a level within `MERGE_EPS`
of its *predecessor* joins the run. -/
def mergeAdjacentSpecAux (acc : VirtualLevel) (prev : ℚ) :
    List VirtualLevel → List VirtualLevel
  | [] => [acc]
  | l :: rest =>
    if |l.Price - prev| < MERGE_EPS then
      mergeAdjacentSpecAux { acc with Amount := acc.Amount + l.Amount } l.Price rest
    else
      acc :: mergeAdjacentSpecAux l l.Price rest

/-- Modelled from the claim's words (and spec section 4.E): a single pass in
which adjacent levels whose prices differ by less than 10⁻⁸ are merged into
one level whose quantity is the sum and whose route and per-hop prices are
those of the first level of the merged run. -/
def mergeAdjacentSpec : List VirtualLevel → List VirtualLevel
  | [] => []
  | first :: rest => mergeAdjacentSpecAux first first.Price rest

/-- Ascending level list on which the code's merge pass and the claim's
adjacent-pairwise merge disagree: all adjacent price gaps are below 10⁻⁸,
but the third level is exactly 10⁻⁸ away from the run's first level. -/
def c6CexLevels : List VirtualLevel :=
  [⟨1, 10, ["A"], [1]⟩, ⟨1 + 9/1000000000, 20, ["B"], [2]⟩,
   ⟨1 + 1/100000000, 30, ["C"], [3]⟩]

attribute [local semireducible] Rat.mul Rat.add Rat.inv Rat.sub in
/-- C6 counterexample: the input is sorted ascending and every two adjacent
levels differ by less than 10⁻⁸, so the merge the claim describes produces
the single level (1, 60); but the code compares each level to the *first*
level of the open run, not to its neighbour, and emits two levels of
quantity 30 each.  The claim as stated is therefore false on the code. -/
theorem c6_adjacent_merge_cex :
    mergeVirtualLevels c6CexLevels ≠ mergeAdjacentSpec c6CexLevels ∧
    mergeAdjacentSpec c6CexLevels = [⟨1, 60, ["A"], [1]⟩] ∧
    mergeVirtualLevels c6CexLevels =
      [⟨1, 30, ["A"], [1]⟩, ⟨1 + 1/100000000, 30, ["C"], [3]⟩] ∧
    ((1 : ℚ) < 1 + 9/1000000000 ∧ (1 + 9/1000000000 : ℚ) < 1 + 1/100000000) ∧
    |(1 + 9/1000000000 : ℚ) - 1| < MERGE_EPS ∧
    |(1 + 1/100000000 : ℚ) - (1 + 9/1000000000)| < MERGE_EPS := by
  decide

/-- Whether a level's price is within `MERGE_EPS` of the reference price
`p` (the run-membership test of `mergeAux`, named for rewriting). -/
def nearPrice (p : ℚ) (l : VirtualLevel) : Bool :=
  |l.Price - p| < MERGE_EPS

/-- The run-start grouping that `mergeAux` actually computes, in
takeWhile/dropWhile form: each run collects the successive levels within
`MERGE_EPS` of the run's *first* level; the merged level keeps the first
level's price and per-hop prices, sums the quantities, and takes the first
level's route unless a run member with strictly smaller price replaces it
(last such member wins). -/
def mergeRuns : List VirtualLevel → List VirtualLevel
  | [] => []
  | first :: rest =>
    { Price := first.Price
      Amount := first.Amount +
        ((rest.takeWhile (nearPrice first.Price)).map (fun l => l.Amount)).sum
      Route := (rest.takeWhile (nearPrice first.Price)).foldl
        (fun r l => if l.Price < first.Price then l.Route else r) first.Route
      LevelPrices := first.LevelPrices } ::
      mergeRuns (rest.dropWhile (nearPrice first.Price))
termination_by l => l.length
decreasing_by
  simp only [List.length_cons]
  exact Nat.lt_succ_of_le (List.Sublist.length_le (List.dropWhile_sublist _))

/-- The accumulator loop `mergeAux` computes exactly one run-start group
followed by the merge of the remainder. -/
theorem mergeAux_run_eq : ∀ (rest : List VirtualLevel) (cur : VirtualLevel),
    mergeAux cur rest =
      { Price := cur.Price
        Amount := cur.Amount +
          ((rest.takeWhile (nearPrice cur.Price)).map (fun l => l.Amount)).sum
        Route := (rest.takeWhile (nearPrice cur.Price)).foldl
          (fun r l => if l.Price < cur.Price then l.Route else r) cur.Route
        LevelPrices := cur.LevelPrices } ::
      mergeVirtualLevels (rest.dropWhile (nearPrice cur.Price)) := by
  intro rest
  induction rest with
  | nil => intro cur; simp [mergeAux, mergeVirtualLevels]
  | cons l rest ih =>
    intro cur
    by_cases h : |l.Price - cur.Price| < MERGE_EPS
    · have hb : nearPrice cur.Price l = true := by simpa [nearPrice] using h
      have hstep : mergeAux cur (l :: rest) =
          mergeAux { cur with
                     Amount := cur.Amount + l.Amount,
                     Route := if l.Price < cur.Price then l.Route else cur.Route }
            rest := by
        rw [mergeAux, if_pos h]
      rw [hstep, ih]
      dsimp only
      rw [List.takeWhile_cons_of_pos hb, List.dropWhile_cons_of_pos hb]
      simp only [List.map_cons, List.sum_cons, List.foldl_cons, add_assoc]
    · have hb : ¬(nearPrice cur.Price l = true) := by simpa [nearPrice] using h
      rw [mergeAux, if_neg h]
      rw [List.takeWhile_cons_of_neg hb, List.dropWhile_cons_of_neg hb]
      simp only [List.map_nil, List.sum_nil, add_zero, List.foldl_nil]
      rfl

/-- The code's merge pass equals the run-start grouping `mergeRuns` on every
level list. -/
theorem mergeVirtualLevels_eq_mergeRuns (levels : List VirtualLevel) :
    mergeVirtualLevels levels = mergeRuns levels := by
  have key : ∀ (n : Nat) (l : List VirtualLevel), l.length ≤ n →
      mergeVirtualLevels l = mergeRuns l := by
    intro n
    induction n with
    | zero =>
      intro l hl
      have : l = [] := List.eq_nil_of_length_eq_zero (Nat.le_zero.mp hl)
      subst this
      rw [mergeRuns]
      rfl
    | succ n ih =>
      intro l hl
      match l with
      | [] => rw [mergeRuns]; rfl
      | first :: rest =>
        have h1 : mergeVirtualLevels (first :: rest) = mergeAux first rest := rfl
        rw [h1, mergeAux_run_eq, mergeRuns]
        congr 1
        apply ih
        have h2 : rest.length ≤ n := by
          simpa [List.length_cons, Nat.succ_le_succ_iff] using hl
        exact le_trans (List.Sublist.length_le (List.dropWhile_sublist _)) h2
  exact key levels.length levels le_rfl

/-- C6 (amended): the merge pass groups by comparison with the run's first
level (not adjacent-pairwise): each maximal run of successive levels whose
prices are within 10⁻⁸ of the run's first level becomes a single level whose
quantity is the run's total, whose price and per-hop prices are the first
level's, and whose route is the first level's unless a member with strictly
smaller price replaced it. -/
theorem c6_merge_run_semantics (levels : List VirtualLevel) :
    mergeVirtualLevels levels = mergeRuns levels :=
  mergeVirtualLevels_eq_mergeRuns levels

/-- The head of an insertion is either the inserted element or the old head. -/
theorem insertBy_head {α : Type} (lt : α → α → Bool) (a : α) (l : List α) :
    (insertBy lt a l).head? = some a ∨ (insertBy lt a l).head? = l.head? := by
  cases l with
  | nil => left; rfl
  | cons b t =>
    by_cases h : lt a b = true
    · left; rw [insertBy, if_pos h]; rfl
    · right; rw [insertBy, if_neg h]; rfl

/-- Insertion preserves chains, for any relation the comparator decides. -/
theorem chain'_insertBy {α : Type} (lt : α → α → Bool) (R : α → α → Prop)
    (h1 : ∀ a b, lt a b = true → R a b) (h2 : ∀ a b, lt a b = false → R b a)
    (a : α) : ∀ l : List α, l.Chain' R → (insertBy lt a l).Chain' R := by
  intro l
  induction l with
  | nil => intro; simp [insertBy]
  | cons b t ih =>
    intro hc
    by_cases h : lt a b = true
    · rw [insertBy, if_pos h]
      exact List.chain'_cons.mpr ⟨h1 a b h, hc⟩
    · rw [insertBy, if_neg h]
      refine List.chain'_cons'.mpr ⟨?_, ih hc.tail⟩
      intro y hy
      rcases insertBy_head lt a t with hh | hh
      · rw [hh] at hy
        cases hy
        exact h2 a b (Bool.not_eq_true _ ▸ h)
      · rw [hh] at hy
        exact (List.chain'_cons'.mp hc).1 y hy

/-- The insertion sort produces a chain for any relation the comparator
decides. -/
theorem chain'_sortBy {α : Type} (lt : α → α → Bool) (R : α → α → Prop)
    (h1 : ∀ a b, lt a b = true → R a b) (h2 : ∀ a b, lt a b = false → R b a) :
    ∀ l : List α, (sortBy lt l).Chain' R := by
  intro l
  induction l with
  | nil => simp [sortBy]
  | cons a t ih => exact chain'_insertBy lt R h1 h2 a _ ih

/-- A chain for a transitive relation is pairwise. -/
theorem chain'_pairwise {α : Type} (R : α → α → Prop)
    (htr : ∀ a b c, R a b → R b c → R a c) (l : List α) (h : l.Chain' R) :
    l.Pairwise R :=
  (@List.chain'_iff_pairwise α R ⟨htr⟩ l).mp h

/-- The head of a `dropWhile` fails the predicate. -/
theorem dropWhile_head_not {α : Type} (p : α → Bool) :
    ∀ (l : List α) (b : α) (t : List α), l.dropWhile p = b :: t → p b = false := by
  intro l
  induction l with
  | nil => intro b t h; exact absurd h (by simp)
  | cons a l ih =>
    intro b t h
    by_cases ha : p a = true
    · rw [List.dropWhile_cons_of_pos ha] at h
      exact ih b t h
    · rw [List.dropWhile_cons_of_neg ha] at h
      cases h
      exact Bool.not_eq_true _ ▸ ha

/-- `mergeRuns` of a list that is pairwise for a price relation is a chain
for that relation strengthened with the `MERGE_EPS` separation between
adjacent emitted prices. -/
theorem mergeRuns_chain (R : ℚ → ℚ → Prop) :
    ∀ (n : Nat) (l : List VirtualLevel), l.length ≤ n →
      l.Pairwise (fun a b => R a.Price b.Price) →
      (mergeRuns l).Chain'
        (fun a b => R a.Price b.Price ∧ MERGE_EPS ≤ |b.Price - a.Price|) := by
  intro n
  induction n with
  | zero =>
    intro l hl _
    have : l = [] := List.eq_nil_of_length_eq_zero (Nat.le_zero.mp hl)
    subst this
    rw [mergeRuns]
    simp
  | succ n ih =>
    intro l hl hp
    match l with
    | [] => rw [mergeRuns]; simp
    | first :: rest =>
      rw [mergeRuns]
      have hrest : rest.length ≤ n := by
        simpa [List.length_cons, Nat.succ_le_succ_iff] using hl
      have hsub : List.Sublist (rest.dropWhile (nearPrice first.Price)) rest :=
        List.dropWhile_sublist _
      have hp' : (rest.dropWhile (nearPrice first.Price)).Pairwise
          (fun a b => R a.Price b.Price) :=
        (List.pairwise_cons.mp hp).2.sublist hsub
      have hlen' : (rest.dropWhile (nearPrice first.Price)).length ≤ n :=
        le_trans (List.Sublist.length_le hsub) hrest
      refine List.chain'_cons'.mpr ⟨?_, ih _ hlen' hp'⟩
      intro y hy
      match hdw : rest.dropWhile (nearPrice first.Price) with
      | [] => rw [hdw] at hy; rw [mergeRuns] at hy; simp at hy
      | b :: t =>
        rw [hdw] at hy
        rw [mergeRuns] at hy
        simp only [List.head?_cons, Option.mem_def, Option.some.injEq] at hy
        have hyp : y.Price = b.Price := by rw [← hy]
        have hbmem : b ∈ rest := hsub.subset (hdw ▸ List.mem_cons_self b t)
        have hRfb : R first.Price b.Price := (List.pairwise_cons.mp hp).1 b hbmem
        have hnear : nearPrice first.Price b = false :=
          dropWhile_head_not _ rest b t hdw
        have hgap : MERGE_EPS ≤ |b.Price - first.Price| := by
          have : ¬(|b.Price - first.Price| < MERGE_EPS) := by
            simpa [nearPrice] using hnear
          linarith [not_lt.mp this]
        exact ⟨by simpa [hyp] using hRfb, by simpa [hyp] using hgap⟩

/-- C4: for every input and request, the finalized virtual book has its ask
levels in non-decreasing price order and its bid levels in non-increasing
price order, and on each side every two adjacent levels' prices differ by at
least 10⁻⁸ in absolute value. -/
theorem c4_finalized_book_sorted_and_separated (pairs : List TradingPair)
    (baseCurrency quoteCurrency : String) :
    ((buildVirtualOrderbook (buildGraph pairs) baseCurrency quoteCurrency).AskOrders.Chain'
      (fun a b => a.Price ≤ b.Price)) ∧
    ((buildVirtualOrderbook (buildGraph pairs) baseCurrency quoteCurrency).BidOrders.Chain'
      (fun a b => b.Price ≤ a.Price)) ∧
    ((buildVirtualOrderbook (buildGraph pairs) baseCurrency quoteCurrency).AskOrders.Chain'
      (fun a b => MERGE_EPS ≤ |b.Price - a.Price|)) ∧
    ((buildVirtualOrderbook (buildGraph pairs) baseCurrency quoteCurrency).BidOrders.Chain'
      (fun a b => MERGE_EPS ≤ |b.Price - a.Price|)) := by
  have haskS : ∀ levels : List VirtualLevel,
      (mergeVirtualLevels (sortVirtualLevels levels true)).Chain'
        (fun a b => a.Price ≤ b.Price ∧ MERGE_EPS ≤ |b.Price - a.Price|) := by
    intro levels
    rw [mergeVirtualLevels_eq_mergeRuns, sortVirtualLevels]
    apply mergeRuns_chain (fun p q => p ≤ q) _ _ le_rfl
    apply chain'_pairwise (fun a b : VirtualLevel => a.Price ≤ b.Price)
      (fun a b c hab hbc => le_trans hab hbc)
    apply chain'_sortBy
    · intro a b hab
      simp only [if_true, decide_eq_true_eq] at hab
      exact le_of_lt hab
    · intro a b hab
      simp only [if_true, decide_eq_false_iff_not] at hab
      exact le_of_not_lt hab
  have hbidS : ∀ levels : List VirtualLevel,
      (mergeVirtualLevels (sortVirtualLevels levels false)).Chain'
        (fun a b => b.Price ≤ a.Price ∧ MERGE_EPS ≤ |b.Price - a.Price|) := by
    intro levels
    rw [mergeVirtualLevels_eq_mergeRuns, sortVirtualLevels]
    apply mergeRuns_chain (fun p q => q ≤ p) _ _ le_rfl
    apply chain'_pairwise (fun a b : VirtualLevel => b.Price ≤ a.Price)
      (fun a b c hab hbc => le_trans hbc hab)
    apply chain'_sortBy
    · intro a b hab
      simp only [Bool.false_eq_true, if_false, decide_eq_true_eq] at hab
      exact le_of_lt hab
    · intro a b hab
      simp only [Bool.false_eq_true, if_false, decide_eq_false_iff_not] at hab
      exact le_of_not_lt hab
  refine ⟨?_, ?_, ?_, ?_⟩
  · exact (haskS _).imp (fun _ _ h => h.1)
  · exact (hbidS _).imp (fun _ _ h => h.1)
  · exact (haskS _).imp (fun _ _ h => h.2)
  · exact (hbidS _).imp (fun _ _ h => h.2)

/-- A currency listed among a vertex's neighbours has a stored edge. -/
theorem neighbors_sound (g : Graph) (x y : String) (h : y ∈ neighbors g x) :
    (lookupEdge g x y).isSome := by
  rw [neighbors] at h
  obtain ⟨e, he, hey⟩ := List.mem_map.mp (List.mem_dedup.mp h)
  have hef := List.mem_filter.mp he
  have hex : ∃ e ∈ g, (fun e => e.1.1 == x && e.1.2 == y) e := by
    refine ⟨e, hef.1, ?_⟩
    simp only [Bool.and_eq_true, beq_iff_eq]
    exact ⟨by simpa using hef.2, hey⟩
  obtain ⟨v, hv⟩ := Option.isSome_iff_exists.mp (List.find?_isSome.mpr hex)
  rw [lookupEdge, hv]
  rfl

/-- Soundness invariant of the depth-first search: under the loop invariants
on `currentPath` and `visited`, every emitted path extends the current
prefix, ends at the target, stays duplicate-free and edge-connected, and has
between 2 and `maxDepth` currencies. -/
theorem findPathsRecursive_sound (g : Graph) :
    ∀ (fuel : Nat) (current target : String) (visited path : List String)
      (maxD : Nat) (q : List String),
      q ∈ findPathsRecursive g fuel current target visited path maxD →
      path ≠ [] → path.getLast? = some current → path.Nodup →
      path.Chain' (fun a b => (lookupEdge g a b).isSome) →
      (∀ c ∈ path, c ∈ current :: visited) →
      q.head? = path.head? ∧ q.getLast? = some target ∧ q.Nodup ∧
        q.Chain' (fun a b => (lookupEdge g a b).isSome) ∧
        1 < q.length ∧ q.length ≤ maxD := by
  intro fuel
  induction fuel with
  | zero =>
    intro current target visited path maxD q hq _ _ _ _ _
    rw [findPathsRecursive] at hq
    exact absurd hq (by simp)
  | succ fuel ih =>
    intro current target visited path maxD q hq hne hlast hnd hch hmem
    rw [findPathsRecursive] at hq
    by_cases h1 : path.length > maxD
    · rw [if_pos h1] at hq
      exact absurd hq (by simp)
    · rw [if_neg h1] at hq
      by_cases h2 : current = target ∧ 1 < path.length
      · rw [if_pos h2] at hq
        have hqp : q = path := by simpa using hq
        subst hqp
        exact ⟨rfl, h2.1 ▸ hlast, hnd, hch, h2.2, not_lt.mp h1⟩
      · rw [if_neg h2] at hq
        obtain ⟨n, hn, hq'⟩ := List.mem_flatMap.mp hq
        have hnf := List.mem_filter.mp hn
        have hnn : n ∈ neighbors g current := hnf.1
        have hnv : n ∉ current :: visited := by simpa using hnf.2
        have hne' : path ++ [n] ≠ [] := by simp
        have hlast' : (path ++ [n]).getLast? = some n := by
          simp [List.getLast?_append]
        have hnd' : (path ++ [n]).Nodup := by
          rw [List.nodup_append]
          refine ⟨hnd, List.nodup_singleton n, ?_⟩
          intro a ha han
          rw [List.mem_singleton] at han
          subst han
          exact hnv (hmem a ha)
        have hch' : (path ++ [n]).Chain' (fun a b => (lookupEdge g a b).isSome) := by
          apply hch.append (List.chain'_singleton n)
          intro x hx y hy
          rw [List.head?_cons, Option.mem_def, Option.some.injEq] at hy
          rw [hlast, Option.mem_def, Option.some.injEq] at hx
          subst hx
          subst hy
          exact neighbors_sound g current n hnn
        have hmem' : ∀ c ∈ path ++ [n], c ∈ n :: current :: visited := by
          intro c hc
          rcases List.mem_append.mp hc with hc1 | hc1
          · exact List.mem_cons_of_mem n (hmem c hc1)
          · rw [List.mem_singleton] at hc1
            subst hc1
            exact List.mem_cons_self _ _
        obtain ⟨hh, hrest⟩ :=
          ih n target (current :: visited) (path ++ [n]) maxD q hq'
            hne' hlast' hnd' hch' hmem'
        have hph : (path ++ [n]).head? = path.head? := by
          cases path with
          | nil => exact absurd rfl hne
          | cons a t => rfl
        exact ⟨hph ▸ hh, hrest⟩

/-- C8: every path returned by `findAllPaths` starts at `start`, ends at the
target, consists of at least 2 pairwise-distinct currencies, has at most
`maxDepth` currencies, and has a stored graph edge between every two
consecutive currencies. -/
theorem c8_paths_sound (g : Graph) (start targetToken : String)
    (maxDepth : Nat) (p : List String)
    (hp : p ∈ findAllPaths g start targetToken maxDepth) :
    p.head? = some start ∧ p.getLast? = some targetToken ∧ p.Nodup ∧
      p.Chain' (fun a b => (lookupEdge g a b).isSome) ∧
      2 ≤ p.length ∧ p.length ≤ maxDepth := by
  have h := findPathsRecursive_sound g (maxDepth + 1) start targetToken []
    [start] maxDepth p hp (by simp) (by simp) (by simp) (by simp) (by simp)
  exact ⟨by simpa using h.1, h.2.1, h.2.2.1, h.2.2.2.1, h.2.2.2.2.1, h.2.2.2.2.2⟩

attribute [local semireducible] Rat.mul Rat.add Rat.inv Rat.sub in
/-- C8 witness: the soundness theorem applied to the single path A→B of a
one-pair graph. -/
theorem c8_paths_sound_witness :
    (["A", "B"] ∈ findAllPaths
      (buildGraph [{ Base := "A", Quote := "B",
                     AskOrders := [⟨1, 1⟩], BidOrders := [] }]) "A" "B" 5) ∧
    (["A", "B"].head? = some "A" ∧ ["A", "B"].getLast? = some "B" ∧
      ["A", "B"].Nodup ∧
      ["A", "B"].Chain' (fun a b =>
        (lookupEdge (buildGraph [{ Base := "A", Quote := "B",
                                   AskOrders := [⟨1, 1⟩], BidOrders := [] }])
          a b).isSome) ∧
      2 ≤ ["A", "B"].length ∧ ["A", "B"].length ≤ 5) :=
  ⟨by decide,
    c8_paths_sound
      (buildGraph [{ Base := "A", Quote := "B",
                     AskOrders := [⟨1, 1⟩], BidOrders := [] }]) "A" "B" 5
      ["A", "B"] (by decide)⟩
